import Mathlib

/-!
Verification of the serial-python core (stream adaptors, tabular
readers/writers, filter pipeline, multi-stream sequencer) against its
natural-language specification.  Text is modelled as `List Char`; the
Python classes are shallowly embedded as state-passing functions.
-/

set_option maxHeartbeats 1000000

abbrev Line := List Char

abbrev Token := List Char

/-- Index of the first newline in the accumulator, mirroring
`self._buffer.index a newline character` in `IStreamZlib.next`. -/
def findNL (l : List Char) : Option Nat :=
  l.findIdx? (fun c => c = '\n')

/-- `IStreamZlib.next`'s scan loop: look for a newline in the accumulator;
on failure pull one more decompressed block (`_read`); keep pulling while
blocks are nonempty; once a pull yields no bytes, treat the remainder of
the accumulator as the final line.  The underlying compressed stream is
modelled by the sequence of byte blocks that successive
`zlib.decompress(stream.read(block_size))` calls return; a mid-stream
block may be empty even though later reads would return more bytes.
Returns (remaining blocks, accumulator, line end position). -/
def zlibFill : List (List Char) → List Char → (List (List Char) × List Char × Nat)
  | chunks, buffer =>
    match findNL buffer with
    | some i => (chunks, buffer, i + 1)
    | none =>
      match chunks with
      | [] => ([], buffer, buffer.length)
      | c :: rest =>
        match c with
        | [] => (rest, buffer, buffer.length)
        | _ :: _ => zlibFill rest (buffer ++ c)

/-- `IStreamZlib.next`: emit the chars up to and including the first
newline (or the whole accumulator at end of data); `none` models the
`StopIteration` raised when the accumulator is empty after the scan. -/
def zlibNext (chunks : List (List Char)) (buffer : List Char) :
    Option (Line × List (List Char) × List Char) :=
  match zlibFill chunks buffer with
  | (chunks', buf, pos) =>
    if buf.isEmpty then none
    else some (buf.take pos, chunks', buf.drop pos)

/-- C1: the decompression adaptor, fed a block sequence whose first
`read`/`decompress` round yields zero bytes while the source still has
data (e.g. a gzip header longer than the block size), raises end-of-input
at once and never emits the payload line; the same payload delivered in
one nonempty block is framed correctly.  This evaluates
`IStreamZlib.next` at the failing input for the code-bug report. -/
theorem zlib_zero_block_premature_eof :
    zlibNext [[], ['a', '\n']] [] = none ∧
    zlibNext [['a', '\n']] [] = some (['a', '\n'], [], []) ∧
    ([[], ['a', '\n']] : List (List Char)).flatten =
      ([['a', '\n']] : List (List Char)).flatten := by
  refine ⟨?_, ?_, ?_⟩ <;> rfl

/-- State of an `IStreamBuffer`: the sliding window (`_buffer`), the
cursor (`_bufpos`) and the lines not yet pulled from the wrapped stream. -/
structure BufState (α : Type*) where
  buffer : List α
  pos : Nat
  stream : List α
  deriving Repr, DecidableEq

/-- `IStreamBuffer.__init__`: eagerly pull up to `bufsize` lines into the
window (fewer if the source is short) and set the cursor to 0. -/
def bufInit (ls : List α) (bufsize : Nat) : BufState α :=
  ⟨ls.take bufsize, 0, ls.drop bufsize⟩

/-- `IStreamBuffer.next`: if the cursor addresses a window entry, return
it and advance; otherwise pull a fresh line, evict the oldest entry and
append the new one.  `(none, s)` models `StopIteration` with the state
unchanged; the degenerate empty-window fetch (where the Python
`del self._buffer[0]` raises `IndexError` after the line was pulled)
also returns no line but consumes the pulled line. -/
def bufNext (s : BufState α) : Option α × BufState α :=
  if h : s.pos < s.buffer.length then
    (some (s.buffer.get ⟨s.pos, h⟩), ⟨s.buffer, s.pos + 1, s.stream⟩)
  else
    match s.stream with
    | [] => (none, s)
    | x :: xs =>
      match s.buffer with
      | [] => (none, ⟨[], s.pos, xs⟩)
      | _ :: bt => (some x, ⟨bt ++ [x], s.pos, xs⟩)

/-- `IStreamBuffer.rewind(count)`: `self._bufpos = max(0, self._bufpos -
abs(count))`; natural subtraction models the clamp at 0. -/
def bufRewind (n : Nat) (s : BufState α) : BufState α :=
  ⟨s.buffer, s.pos - n, s.stream⟩

/-- Run `n` consecutive `next()` calls, collecting the returned lines;
`none` if any call fails to return a line. -/
def bufNextN : Nat → BufState α → Option (List α × BufState α)
  | 0, s => some ([], s)
  | n + 1, s =>
    match bufNext s with
    | (none, _) => none
    | (some x, s') =>
      match bufNextN n s' with
      | none => none
      | some (out, sf) => some (x :: out, sf)

/-- An operation on an `IStreamBuffer`: a `next()` call or a `rewind(n)`. -/
inductive BufOp where
  | next : BufOp
  | rewind (n : Nat) : BufOp

/-- Apply one operation to the buffer state (a failed `next` leaves the
state as the code leaves it). -/
def bufApply (s : BufState α) : BufOp → BufState α
  | .next => (bufNext s).2
  | .rewind n => bufRewind n s

/-- The buffer state after an arbitrary call sequence from construction. -/
def bufRun (ls : List α) (bufsize : Nat) (ops : List BufOp) : BufState α :=
  ops.foldl bufApply (bufInit ls bufsize)

theorem bufNext_preserves (s : BufState α) (hinv : s.pos ≤ s.buffer.length) :
    (bufNext s).2.buffer.length = s.buffer.length ∧
      (bufNext s).2.pos ≤ (bufNext s).2.buffer.length := by
  unfold bufNext
  by_cases h : s.pos < s.buffer.length
  · simp [h]
    omega
  · simp [h]
    match hs : s.stream with
    | [] => simpa using hinv
    | x :: xs =>
      match hb : s.buffer with
      | [] => simp_all
      | b :: bt => simp_all

theorem bufApply_preserves (s : BufState α) (op : BufOp)
    (hinv : s.pos ≤ s.buffer.length) :
    (bufApply s op).buffer.length = s.buffer.length ∧
      (bufApply s op).pos ≤ (bufApply s op).buffer.length := by
  cases op with
  | next => exact bufNext_preserves s hinv
  | rewind n =>
    refine ⟨rfl, ?_⟩
    simp only [bufApply, bufRewind]
    omega

/-- C10: after construction with capacity `C` and any sequence of
`next()`/`rewind()` calls, the cursor never passes the window length,
the window holds at most `C` lines, and the window length never changes
from its value at construction (a fresh fetch evicts exactly one entry
as it appends one). -/
theorem buffer_window_invariant (ls : List α) (C : Nat) (ops : List BufOp) :
    (bufRun ls C ops).pos ≤ (bufRun ls C ops).buffer.length ∧
      (bufRun ls C ops).buffer.length ≤ C ∧
      (bufRun ls C ops).buffer.length = (bufInit ls C).buffer.length := by
  have main : ∀ (ops : List BufOp) (s : BufState α), s.pos ≤ s.buffer.length →
      (ops.foldl bufApply s).pos ≤ (ops.foldl bufApply s).buffer.length ∧
        (ops.foldl bufApply s).buffer.length = s.buffer.length := by
    intro ops
    induction ops with
    | nil => intro s h; exact ⟨h, rfl⟩
    | cons op rest ih =>
      intro s h
      have step := bufApply_preserves s op h
      have tail := ih (bufApply s op) step.2
      exact ⟨tail.1, tail.2.trans step.1⟩
  have h0 : (bufInit ls C).pos ≤ (bufInit ls C).buffer.length := by
    simp [bufInit]
  have hrun := main ops (bufInit ls C) h0
  refine ⟨hrun.1, ?_, hrun.2⟩
  have hlen : (bufInit ls C).buffer.length ≤ C := by
    simp [bufInit]
  calc (bufRun ls C ops).buffer.length
      = (bufInit ls C).buffer.length := hrun.2
    _ ≤ C := hlen

/-- The buffer state reached after `k` successful `next()` calls from
construction over source `ls` with capacity `C`: the window holds the
`C` source lines ending at index `k` (or the eager prefill while
`k < C`), the cursor sits at `min k C`, and `max k C` lines of the
source have been consumed. -/
def bufStateAt (ls : List α) (C k : Nat) : BufState α :=
  ⟨(ls.drop (k - min k C)).take C, min k C, ls.drop (max k C)⟩

theorem bufNextN_inwindow (n : Nat) :
    ∀ s : BufState α, s.pos + n ≤ s.buffer.length →
      bufNextN n s =
        some ((s.buffer.drop s.pos).take n, ⟨s.buffer, s.pos + n, s.stream⟩) := by
  induction n with
  | zero => intro s h; simp [bufNextN]
  | succ n ih =>
    intro s h
    have hlt : s.pos < s.buffer.length := by omega
    have hnext : bufNext s =
        (some (s.buffer.get ⟨s.pos, hlt⟩), ⟨s.buffer, s.pos + 1, s.stream⟩) := by
      simp [bufNext, hlt]
    have ih' := ih ⟨s.buffer, s.pos + 1, s.stream⟩ (by simpa using by omega)
    have hdrop := List.drop_eq_getElem_cons hlt
    have harith : s.pos + 1 + n = s.pos + (n + 1) := by omega
    simp only [bufNextN, hnext, ih', List.get_eq_getElem]
    rw [harith, hdrop, List.take_succ_cons]


theorem bufNext_at (ls : List α) (C k : Nat) (hC : 1 ≤ C) (hk : k < ls.length) :
    bufNext (bufStateAt ls C k) =
      (some (ls.get ⟨k, hk⟩), bufStateAt ls C (k + 1)) := by
  by_cases hkC : k < C
  · have hmin : min k C = k := by omega
    have hmin' : min (k + 1) C = k + 1 := by omega
    have hmax : max k C = C := by omega
    have hmax' : max (k + 1) C = C := by omega
    have hstate : bufStateAt ls C k = ⟨ls.take C, k, ls.drop C⟩ := by
      simp only [bufStateAt, hmin, hmax, Nat.sub_self, List.drop_zero]
    have hstate' : bufStateAt ls C (k + 1) = ⟨ls.take C, k + 1, ls.drop C⟩ := by
      simp only [bufStateAt, hmin', hmax', Nat.sub_self, List.drop_zero]
    rw [hstate, hstate']
    have hlt : k < (ls.take C).length := by
      simp
      omega
    simp only [bufNext]
    rw [dif_pos hlt]
    simp
  · obtain ⟨C', rfl⟩ : ∃ C', C = C' + 1 := ⟨C - 1, by omega⟩
    have hmin : min k (C' + 1) = C' + 1 := by omega
    have hmin' : min (k + 1) (C' + 1) = C' + 1 := by omega
    have hmax : max k (C' + 1) = k := by omega
    have hmax' : max (k + 1) (C' + 1) = k + 1 := by omega
    have hdk : k - (C' + 1) < ls.length := by omega
    have hidx : k - (C' + 1) + 1 = k - C' := by omega
    have hcons : (ls.drop (k - (C' + 1))).take (C' + 1) =
        ls.get ⟨k - (C' + 1), hdk⟩ :: (ls.drop (k - C')).take C' := by
      rw [List.drop_eq_getElem_cons hdk, List.take_succ_cons, hidx]
      try simp
    have hstate : bufStateAt ls (C' + 1) k =
        ⟨ls.get ⟨k - (C' + 1), hdk⟩ :: (ls.drop (k - C')).take C', C' + 1,
          ls.get ⟨k, hk⟩ :: ls.drop (k + 1)⟩ := by
      simp only [bufStateAt, hmin, hmax]
      rw [hcons, List.drop_eq_getElem_cons hk]
      try simp
    have hstate' : bufStateAt ls (C' + 1) (k + 1) =
        ⟨(ls.drop (k - C')).take (C' + 1), C' + 1, ls.drop (k + 1)⟩ := by
      simp only [bufStateAt, hmin', hmax']
      rw [show k + 1 - (C' + 1) = k - C' from by omega]
    rw [hstate, hstate']
    have hnlt : ¬ (C' + 1 < (ls.get ⟨k - (C' + 1), hdk⟩ ::
        (ls.drop (k - C')).take C').length) := by
      simp
      try omega
    have htail : (ls.drop (k - C')).take C' ++ [ls.get ⟨k, hk⟩] =
        (ls.drop (k - C')).take (C' + 1) := by
      have hidx2 : C' < (ls.drop (k - C')).length := by
        simp
        omega
      have hget : (ls.drop (k - C'))[C'] = ls.get ⟨k, hk⟩ := by
        simp
        congr 1
        omega
    
      rw [← List.take_concat_get' (ls.drop (k - C')) C' hidx2, hget]
    simp only [bufNext]
    rw [dif_neg hnlt]
    rw [htail]

theorem bufNextN_at (ls : List α) (C : Nat) (hC : 1 ≤ C) :
    ∀ k j : Nat, j + k ≤ ls.length →
      bufNextN k (bufStateAt ls C j) =
        some ((ls.drop j).take k, bufStateAt ls C (j + k)) := by
  intro k
  induction k with
  | zero => intro j h; simp [bufNextN]
  | succ k ih =>
    intro j h
    have hj : j < ls.length := by omega
    have hstep := bufNext_at ls C j hC hj
    have ihs := ih (j + 1) (by omega)
    simp only [bufNextN, hstep, ihs, List.get_eq_getElem]
    rw [show j + 1 + k = j + (k + 1) from by omega]
    rw [List.drop_eq_getElem_cons hj, List.take_succ_cons]

theorem bufInit_eq_stateAt (ls : List α) (C : Nat) :
    bufInit ls C = bufStateAt ls C 0 := by
  simp only [bufInit, bufStateAt, Nat.zero_min, Nat.zero_max, Nat.sub_self,
    List.drop_zero]

/-- C8: over any line source, after `k` `next()` calls from construction
with window capacity `C` (which yield the first `k` lines),
`rewind(n)` with `n` at most `C` and at most the produced history
followed by `n` `next()` calls replays exactly the last `n` of those
lines and returns the adaptor to the very state it was in before the
rewind — in particular the wrapped source is not re-read; and a rewind
by more than the retained history (`min k C` lines) clamps the cursor
to 0, the position of the earliest line still in the window. -/
theorem buffer_rewind_replays (ls : List α) (C k : Nat) (hC : 1 ≤ C)
    (hk : k ≤ ls.length) :
    bufNextN k (bufInit ls C) = some (ls.take k, bufStateAt ls C k) ∧
    (∀ n, n ≤ k → n ≤ C →
      bufNextN n (bufRewind n (bufStateAt ls C k)) =
        some ((ls.take k).drop (k - n), bufStateAt ls C k)) ∧
    (∀ n, min k C < n →
      (bufRewind n (bufStateAt ls C k)).pos = 0 ∧
      (bufRewind n (bufStateAt ls C k)).buffer.head? =
        (ls.drop (k - min k C)).head?) := by
  refine ⟨?_, ?_, ?_⟩
  · rw [bufInit_eq_stateAt]
    have h := bufNextN_at ls C hC k 0 (by omega)
    simpa using h
  · intro n hnk hnC
    have hpos : (bufRewind n (bufStateAt ls C k)).pos + n ≤
        (bufRewind n (bufStateAt ls C k)).buffer.length := by
      simp [bufRewind, bufStateAt]
      omega
    have h := bufNextN_inwindow n (bufRewind n (bufStateAt ls C k)) hpos
    rw [h]
    have hout : (((ls.drop (k - min k C)).take C).drop (min k C - n)).take n =
        (ls.take k).drop (k - n) := by
      rw [List.drop_take, List.drop_drop, List.take_take]
      rw [List.drop_take]
      rw [show k - min k C + (min k C - n) = k - n from by omega]
      rw [show min n (C - (min k C - n)) = n from by omega]
      rw [show k - (k - n) = n from by omega]
    have hstate : (⟨(bufRewind n (bufStateAt ls C k)).buffer,
        (bufRewind n (bufStateAt ls C k)).pos + n,
        (bufRewind n (bufStateAt ls C k)).stream⟩ : BufState α) =
        bufStateAt ls C k := by
      simp only [bufRewind, bufStateAt]
      rw [show min k C - n + n = min k C from by omega]
    simp only [bufRewind, bufStateAt] at hout ⊢
    rw [show min k C - n + n = min k C from by omega]
    rw [hout]
  · intro n hn
    constructor
    · simp only [bufRewind, bufStateAt]
      omega
    · simp only [bufRewind, bufStateAt]
      rw [List.head?_take, if_neg (by omega)]

/-- Witness for C8 at a concrete run: source `[0,1,2,3,4]`, capacity 2,
three reads (`0,1,2`), then a rewind by 2 replays `[1,2]` and a rewind
by 3 clamps the cursor to the start of the window. -/
theorem buffer_rewind_replays_witness :
    bufNextN 3 (bufInit [0, 1, 2, 3, 4] 2) =
      some ([0, 1, 2], bufStateAt [0, 1, 2, 3, 4] 2 3) ∧
    bufNextN 2 (bufRewind 2 (bufStateAt [0, 1, 2, 3, 4] 2 3)) =
      some ([1, 2], bufStateAt [0, 1, 2, 3, 4] 2 3) ∧
    (bufRewind 3 (bufStateAt [0, 1, 2, 3, 4] 2 3)).pos = 0 := by
  have h := buffer_rewind_replays [0, 1, 2, 3, 4] 2 3 (by decide) (by decide)
  refine ⟨h.1, ?_, (h.2.2 3 (by decide)).1⟩
  have h2 := h.2.1 2 (by decide) (by decide)
  simpa using h2

/-- Result of a Python filter callback on a record: a (possibly new)
record, `None` (reject), or a raised `StopIteration` (stop). -/
inductive FOut (R : Type*) where
  | ok (r : R)
  | reject
  | stop
  deriving Repr, DecidableEq

abbrev Filt (R : Type*) := R → FOut R

/-- The inner `for callback in self._filters` loop of `_Reader.next`:
apply each filter in registration order to the (possibly replaced)
record; stop at the first reject or stop signal. -/
def applyFilters : List (Filt R) → R → FOut R
  | [], r => .ok r
  | f :: rest, r =>
    match f r with
    | .ok r' => applyFilters rest r'
    | .reject => .reject
    | .stop => .stop

/-- `_Reader.filter(*callbacks)`: with no callbacks clear the filter
list, otherwise extend it with all of them in order. -/
def readerFilterCall (callbacks filters : List (Filt R)) : List (Filt R) :=
  if callbacks.isEmpty then [] else filters ++ callbacks

/-- `_Writer.filter(callback=None)` as seen from a call site passing
`callbacks` positional arguments: zero arguments clears the list, one
appends that callback, and two or more is a `TypeError` (`none`) since
the writer accepts a single optional callback. -/
def writerFilterCall (callbacks filters : List (Filt R)) :
    Option (List (Filt R)) :=
  match callbacks with
  | [] => some []
  | [c] => some (filters ++ [c])
  | _ => none

/-- `_Reader.next`: the retry loop over raw records from `_get` (the
list `raws`); a rejected record causes a retry with the next raw
record, a stop signal or source exhaustion yields `none`. -/
def readerNext (fs : List (Filt R)) : List R → Option (R × List R)
  | [] => none
  | r :: rest =>
    match applyFilters fs r with
    | .ok r' => some (r', rest)
    | .reject => readerNext fs rest
    | .stop => none

theorem readerNext_length (fs : List (Filt R)) :
    ∀ (raws : List R) (r : R) (rest : List R),
      readerNext fs raws = some (r, rest) → rest.length < raws.length := by
  intro raws
  induction raws with
  | nil => intro r rest h; simp [readerNext] at h
  | cons a l ih =>
    intro r rest h
    simp only [readerNext] at h
    cases happ : applyFilters fs a with
    | ok r' =>
      rw [happ] at h
      simp at h
      simp [← h.2]
    | reject =>
      rw [happ] at h
      have := ih r rest h
      simp
      omega
    | stop => rw [happ] at h; simp at h

/-- Iterating `_Reader.next` until end-of-input: the full filtered
record sequence the reader produces (`readerIter_eq_next` shows this is
exactly the unfolding of repeated `readerNext` calls). -/
def readerIter (fs : List (Filt R)) : List R → List R
  | [] => []
  | r :: rest =>
    match applyFilters fs r with
    | .ok r' => r' :: readerIter fs rest
    | .reject => readerIter fs rest
    | .stop => []

theorem readerIter_eq_next (fs : List (Filt R)) (raws : List R) :
    readerIter fs raws =
      match readerNext fs raws with
      | none => []
      | some (r, rest) => r :: readerIter fs rest := by
  induction raws with
  | nil => rfl
  | cons r l ih =>
    simp only [readerIter, readerNext]
    cases happ : applyFilters fs r with
    | ok r' => rfl
    | reject => exact ih
    | stop => rfl

theorem readerIter_nil (fs : List (Filt R)) : readerIter fs [] = [] := rfl

theorem readerIter_cons_ok (fs : List (Filt R)) (r r' : R) (l : List R)
    (h : applyFilters fs r = .ok r') :
    readerIter fs (r :: l) = r' :: readerIter fs l := by
  simp [readerIter, h]

theorem readerIter_cons_reject (fs : List (Filt R)) (r : R) (l : List R)
    (h : applyFilters fs r = .reject) :
    readerIter fs (r :: l) = readerIter fs l := by
  simp [readerIter, h]

theorem readerIter_cons_stop (fs : List (Filt R)) (r : R) (l : List R)
    (h : applyFilters fs r = .stop) :
    readerIter fs (r :: l) = [] := by
  simp [readerIter, h]

/-- C4: a raw record rejected by the filter chain never contributes to
the reader's output sequence (the output over any surrounding raw
records is as if the rejected record were absent, however many rejects
occur), and a record on which the chain raises the stop signal ends the
sequence there, excluding it and everything after it. -/
theorem reader_filter_reject_stop (fs : List (Filt R)) (pre post : List R)
    (r : R) :
    (applyFilters fs r = .reject →
      readerIter fs (pre ++ r :: post) = readerIter fs (pre ++ post)) ∧
    (applyFilters fs r = .stop →
      readerIter fs (pre ++ r :: post) = readerIter fs pre) := by
  induction pre with
  | nil =>
    constructor
    · intro h
      simpa using readerIter_cons_reject fs r post h
    · intro h
      simpa [readerIter_nil] using readerIter_cons_stop fs r post h
  | cons p pre' ih =>
    constructor
    · intro h
      cases happ : applyFilters fs p with
      | ok p' =>
        rw [List.cons_append, readerIter_cons_ok fs p p' _ happ,
          List.cons_append, readerIter_cons_ok fs p p' _ happ, ih.1 h]
      | reject =>
        rw [List.cons_append, readerIter_cons_reject fs p _ happ,
          List.cons_append, readerIter_cons_reject fs p _ happ, ih.1 h]
      | stop =>
        rw [List.cons_append, readerIter_cons_stop fs p _ happ,
          List.cons_append, readerIter_cons_stop fs p _ happ]
    · intro h
      cases happ : applyFilters fs p with
      | ok p' =>
        rw [List.cons_append, readerIter_cons_ok fs p p' _ happ,
          readerIter_cons_ok fs p p' _ happ, ih.2 h]
      | reject =>
        rw [List.cons_append, readerIter_cons_reject fs p _ happ,
          readerIter_cons_reject fs p _ happ, ih.2 h]
      | stop =>
        rw [List.cons_append, readerIter_cons_stop fs p _ happ,
          readerIter_cons_stop fs p _ happ]

/-- A filter rejecting records whose value is 3, like `reject_filter`
in the repository's test suite. -/
def rejectThree : Filt Nat := fun r => if r = 3 then .reject else .ok r

/-- A filter stopping iteration at value 6, like `stop_filter` in the
repository's test suite. -/
def stopSix : Filt Nat := fun r => if r = 6 then .stop else .ok r

/-- Witness for C4: with the test-suite filters, the record 3 is
dropped from the output as if absent, and the record 6 truncates the
sequence before it. -/
theorem reader_filter_reject_stop_witness :
    readerIter [rejectThree] ([1] ++ 3 :: [2]) =
      readerIter [rejectThree] ([1] ++ [2]) ∧
    readerIter [stopSix] ([1] ++ 6 :: [2]) = readerIter [stopSix] [1] := by
  exact ⟨(reader_filter_reject_stop [rejectThree] [1] [2] 3).1 rfl,
    (reader_filter_reject_stop [stopSix] [1] [2] 6).2 rfl⟩

/-- A filter accepting every record, like `accept_filter` in the
repository's test suite. -/
def acceptAll : Filt Nat := fun r => .ok r

/-- C9 counterexample: calling the writer's `filter` with two callbacks
is a `TypeError` (its signature takes one optional callback), not the
append-all the reader's `filter(*callbacks)` performs. -/
theorem writer_filter_two_callbacks_rejected :
    writerFilterCall [acceptAll, acceptAll] [] ≠
      some (readerFilterCall [acceptAll, acceptAll] []) := by
  simp [writerFilterCall]

/-- C9 amended: the writer's `filter` agrees with the reader's on the
calls its signature admits — no arguments clears the chain and a single
callback appends it — while the reader accepts any number of callbacks
and appends them all in order; two or more callbacks to the writer fail. -/
theorem writer_filter_single_callback (fs : List (Filt R)) (c : Filt R) :
    writerFilterCall [] fs = some (readerFilterCall [] fs) ∧
    writerFilterCall [c] fs = some (readerFilterCall [c] fs) ∧
    (∀ cs : List (Filt R), readerFilterCall (c :: cs) fs = fs ++ c :: cs) ∧
    (∀ (c₂ : Filt R) (cs : List (Filt R)),
      writerFilterCall (c :: c₂ :: cs) fs = none) := by
  exact ⟨rfl, rfl, fun cs => rfl, fun c₂ cs => rfl⟩


/-- State of a `ReaderSequence`: the remaining sources (`self._input`,
whose head is the currently opened/active one after construction) and
counters of completed `_open` calls and of `close()` calls, which model
the observable open/close side effects. -/
structure SeqState (α : Type*) where
  input : List (List α)
  opens : Nat
  closes : Nat
  deriving Repr, DecidableEq

/-- `ReaderSequence.__init__`: stores the inputs and immediately calls
`self._open()`, which opens `self._input[0]` and attaches the reader;
with no inputs `_open` raises `StopIteration` out of the constructor
(modelled as `none`). -/
def seqInit (inputs : List (List α)) : Option (SeqState α) :=
  match inputs with
  | [] => none
  | _ :: _ => some ⟨inputs, 1, 0⟩

/-- `ReaderSequence._get` (with `_open` inlined): return the next record
of the active source; when it is exhausted, close and pop it and open
the next; `none` once every source is exhausted (`StopIteration`). -/
def seqGet : SeqState α → Option α × SeqState α
  | ⟨[], o, c⟩ => (none, ⟨[], o, c⟩)
  | ⟨(r :: rs) :: t, o, c⟩ => (some r, ⟨rs :: t, o, c⟩)
  | ⟨[] :: t, o, c⟩ =>
    match t with
    | [] => (none, ⟨[], o, c + 1⟩)
    | y :: t' => seqGet ⟨y :: t', o + 1, c + 1⟩
termination_by s => s.input.length

/-- Drain the sequence: iterate `_get` to exhaustion, collecting the
records and the final state (`seqDrain_eq_get` shows this is the
unfolding of repeated `seqGet` calls). -/
def seqDrain : SeqState α → List α × SeqState α
  | ⟨[], o, c⟩ => ([], ⟨[], o, c⟩)
  | ⟨(r :: rs) :: t, o, c⟩ =>
    (r :: (seqDrain ⟨rs :: t, o, c⟩).1, (seqDrain ⟨rs :: t, o, c⟩).2)
  | ⟨[] :: t, o, c⟩ =>
    match t with
    | [] => ([], ⟨[], o, c + 1⟩)
    | y :: t' => seqDrain ⟨y :: t', o + 1, c + 1⟩
termination_by s => (s.input.length, (s.input.headD []).length)

theorem seqDrain_eq_get (s : SeqState α) :
    seqDrain s =
      match seqGet s with
      | (none, sf) => ([], sf)
      | (some r, s') => (r :: (seqDrain s').1, (seqDrain s').2) := by
  induction s using seqDrain.induct with
  | case1 o c => simp [seqDrain, seqGet]
  | case2 r rs t o c ih => simp [seqDrain, seqGet]
  | case3 o c => simp [seqDrain, seqGet]
  | case4 o c y t' ih =>
    simp only [seqDrain, seqGet]
    exact ih

theorem seqDrain_spec (s : SeqState α) (h : s.input ≠ []) :
    seqDrain s =
      (s.input.flatten,
        ⟨[], s.opens + (s.input.length - 1), s.closes + s.input.length⟩) := by
  induction s using seqDrain.induct with
  | case1 o c => simp at h
  | case2 r rs t o c ih =>
    have hrec := ih (by simp)
    simp only [seqDrain, hrec]
    simp
  | case3 o c => simp [seqDrain]
  | case4 o c y t' ih =>
    have hrec := ih (by simp)
    simp only [seqDrain, hrec]
    simp
    omega

/-- C6 counterexample: immediately after `ReaderSequence.__init__` over
one source — before any record has been requested — one `_open` has
already completed (the constructor calls `self._open()`), so the claim
that the first input is opened lazily on first access fails. -/
theorem sequence_opens_eagerly :
    (seqInit [[(0 : Nat)]]).map SeqState.opens = some 1 ∧
    ¬ ((seqInit [[(0 : Nat)]]).map SeqState.opens = some 0) := by
  constructor <;> simp [seqInit]

/-- C6 amended: the first input is opened eagerly at construction
(exactly one `_open` has run, nothing closed); on exhaustion of the
active source the sequencer closes it and advances to the next; draining
yields every record of every source in order, and end-of-input comes
only after all `N` sources are exhausted, each opened and closed exactly
once (`N` opens and `N` closes in the final state). -/
theorem sequence_open_close_drain (inputs : List (List α)) (s₀ : SeqState α)
    (h : seqInit inputs = some s₀) :
    s₀.opens = 1 ∧ s₀.closes = 0 ∧
    (seqDrain s₀).1 = inputs.flatten ∧
    (seqDrain s₀).2.opens = inputs.length ∧
    (seqDrain s₀).2.closes = inputs.length := by
  cases inputs with
  | nil => simp [seqInit] at h
  | cons x t =>
    have hs : s₀ = ⟨x :: t, 1, 0⟩ := by
      simp [seqInit] at h
      exact h.symm
    subst hs
    have hd := seqDrain_spec (⟨x :: t, 1, 0⟩ : SeqState α) (by simp)
    rw [hd]
    simp
    omega

/-- Witness for C6 (amended): two sources `[0]` and `[1]`; construction
opens the first at once, draining yields `[0, 1]`, and both sources end
up closed. -/
theorem sequence_open_close_drain_witness :
    seqInit [[(0 : Nat)], [1]] = some ⟨[[0], [1]], 1, 0⟩ ∧
    (⟨[[0], [1]], 1, 0⟩ : SeqState Nat).opens = 1 ∧
    (seqDrain (⟨[[0], [1]], 1, 0⟩ : SeqState Nat)).1 = [0, 1] ∧
    (seqDrain (⟨[[0], [1]], 1, 0⟩ : SeqState Nat)).2.opens = 2 ∧
    (seqDrain (⟨[[0], [1]], 1, 0⟩ : SeqState Nat)).2.closes = 2 := by
  have h := sequence_open_close_drain [[0], [1]] ⟨[[0], [1]], 1, 0⟩ rfl
  exact ⟨rfl, h.1, h.2.2.1, h.2.2.2.1, h.2.2.2.2⟩

/-- Python's `line.split(delim)` for a one-character delimiter: split at
every occurrence, discarding the delimiter (empty tokens kept). -/
def splitOnChar (d : Char) : List Char → List (List Char)
  | [] => [[]]
  | c :: cs =>
    match splitOnChar d cs with
    | [] => [[]]
    | t :: ts => if c = d then [] :: t :: ts else (c :: t) :: ts

/-- Python's `delim.join(tokens)` for a one-character delimiter. -/
def joinWith (d : Char) : List (List Char) → List Char
  | [] => []
  | [t] => t
  | t :: u :: ts => t ++ d :: joinWith d (u :: ts)

/-- Python's `line.rstrip(endl)` for a one-character strip set: remove
every trailing occurrence of the character. -/
def rstripChar (c : Char) (l : List Char) : List Char :=
  (l.reverse.dropWhile (fun x => x == c)).reverse

theorem splitOnChar_ne_nil (d : Char) (l : List Char) :
    splitOnChar d l ≠ [] := by
  cases l with
  | nil => simp [splitOnChar]
  | cons c cs =>
    simp only [splitOnChar]
    rcases hr : splitOnChar d cs with _ | ⟨t, ts⟩ <;> by_cases hc : c = d <;>
      simp [hc]

theorem joinWith_splitOnChar (d : Char) (l : List Char) :
    joinWith d (splitOnChar d l) = l := by
  induction l with
  | nil => rfl
  | cons c cs ih =>
    simp only [splitOnChar]
    rcases hr : splitOnChar d cs with _ | ⟨t, ts⟩
    · exact absurd hr (splitOnChar_ne_nil d cs)
    · rw [hr] at ih
      by_cases hc : c = d
      · subst hc
        simp only [if_pos rfl, joinWith]
        simpa using ih
      · simp only [if_neg hc]
        cases ts with
        | nil =>
          simp only [joinWith] at ih ⊢
          rw [ih]
        | cons u ts' =>
          simp only [joinWith] at ih ⊢
          rw [List.cons_append, ih]

theorem rstripChar_append (c : Char) (l : List Char)
    (h : l.getLast? ≠ some c) : rstripChar c (l ++ [c]) = l := by
  unfold rstripChar
  rw [List.reverse_append]
  simp only [List.reverse_cons, List.reverse_nil, List.nil_append,
    List.singleton_append, List.dropWhile_cons]
  simp only [beq_self_eq_true, if_true]
  cases hrev : l.reverse with
  | nil =>
    have : l = [] := by simpa using congrArg List.reverse hrev
    simp [this]
  | cons a as =>
    have hlast : l.getLast? = some a := by
      rw [← List.head?_reverse, hrev]
      rfl
    have ha : (a == c) = false := by
      rw [hlast] at h
      simp only [beq_eq_false_iff_ne, ne_eq]
      intro hac
      exact h (by rw [hac])
    rw [List.dropWhile_cons, ha]
    simp only [Bool.false_eq_true, if_false]
    rw [← hrev, List.reverse_reverse]

namespace Serial

/-- A field's position specifier: an integer token/character index for a
scalar field, or a half-open `[beg, fin)` range for an array field
(delimited) or for any fixed-width field. -/
inductive Pos where
  | idx (i : Nat)
  | rng (beg fin : Nat)
  deriving Repr, DecidableEq

/-- What `_split` hands to a codec's `decode`: one token (delimited
scalar fields and every fixed-width field) or a list of raw tokens
(delimited array fields, selected by a slice). -/
abbrev TokArg := Token ⊕ List Token

/-- What a codec's `encode` returns and `_merge` consumes: a plain
string token, or a sequence of tokens (c.f. `ArrayType`), potentially
nested. -/
inductive Tok where
  | s (t : Token)
  | seq (ts : List Tok)
  deriving Repr

/-- `isinstance(token, basestring)` in the `_merge` loops. -/
def Tok.isAtom : Tok → Bool
  | .s _ => true
  | .seq _ => false

/-- A token as the string `str.join` expects; `none` models the
`TypeError` Python raises when joining a non-string element. -/
def tokString : Tok → Option Token
  | .s t => some t
  | .seq _ => none

/-- The `while pos < len(tokens)` flattening loop shared by
`DelimitedWriter._merge` and `FixedWidthWriter._merge` (lines 139-148
and 166-175 of writer.py): an atomic (string) token advances `pos` by
one; a sequence token is spliced in place
(`tokens[pos:pos+1] = token`) and `pos` then advances past the spliced
elements (`pos += len(token)`). -/
def mergeLoop (tokens : List Tok) (pos : Nat) : List Tok :=
  if h : pos < tokens.length then
    match tokens.get ⟨pos, h⟩ with
    | .s _ => mergeLoop tokens (pos + 1)
    | .seq ts =>
      mergeLoop (tokens.take pos ++ ts ++ tokens.drop (pos + 1))
        (pos + ts.length)
  else tokens
termination_by tokens.length - pos
decreasing_by
  · omega
  · simp
    omega

/-- One left-to-right pass with an accumulator: the same transformation
`mergeLoop` performs, in structural form (`mergeLoop_eq_go`). -/
def mergeGo : List Tok → List Tok → List Tok
  | acc, [] => acc
  | acc, .s t :: rest => mergeGo (acc ++ [.s t]) rest
  | acc, .seq ts :: rest => mergeGo (acc ++ ts) rest

theorem mergeGo_acc (l : List Tok) :
    ∀ acc : List Tok, mergeGo acc l = acc ++ mergeGo [] l := by
  induction l with
  | nil => intro acc; simp [mergeGo]
  | cons x rest ih =>
    intro acc
    cases x with
    | s t =>
      simp only [mergeGo]
      rw [ih (acc ++ [Tok.s t]), ih ([] ++ [Tok.s t])]
      simp
    | seq ts =>
      simp only [mergeGo]
      rw [ih (acc ++ ts), ih ([] ++ ts)]
      simp

theorem mergeLoop_eq_go (tokens : List Tok) (pos : Nat) :
    mergeLoop tokens pos =
      tokens.take pos ++ mergeGo [] (tokens.drop pos) := by
  induction tokens, pos using mergeLoop.induct with
  | case1 tokens pos h t hget ih =>
    rw [mergeLoop]
    simp only [dif_pos h, hget]
    rw [ih]
    rw [List.drop_eq_getElem_cons h]
    simp only [List.get_eq_getElem] at hget
    rw [hget]
    simp only [mergeGo, List.nil_append]
    rw [mergeGo_acc (tokens.drop (pos + 1)) [Tok.s t]]
    rw [← List.take_concat_get' tokens pos h]
    rw [hget]
    simp
  | case2 tokens pos h ts hget ih =>
    rw [mergeLoop]
    simp only [dif_pos h, hget]
    rw [ih]
    have hlen : (tokens.take pos ++ ts).length = pos + ts.length := by
      simp
      omega
    have htake : ((tokens.take pos ++ ts) ++ tokens.drop (pos + 1)).take
        (pos + ts.length) = tokens.take pos ++ ts :=
      List.take_left' hlen
    have hdrop : ((tokens.take pos ++ ts) ++ tokens.drop (pos + 1)).drop
        (pos + ts.length) = tokens.drop (pos + 1) :=
      List.drop_left' hlen
    rw [htake, hdrop]
    rw [List.drop_eq_getElem_cons h]
    simp only [List.get_eq_getElem] at hget
    rw [hget]
    simp only [mergeGo, List.nil_append]
    rw [mergeGo_acc (tokens.drop (pos + 1)) ts]
    simp
  | case3 tokens pos h =>
    rw [mergeLoop, dif_neg h]
    rw [List.take_of_length_le (by omega), List.drop_eq_nil_of_le (by omega)]
    simp [mergeGo]

end Serial

namespace Serial

/-- One splice step's contribution: an atomic token stays, a sequence
token is replaced by its elements (not recursed into). -/
def flatOne : Tok → List Tok
  | .s t => [.s t]
  | .seq ts => ts

/-- A token list entry as produced by a scalar or array codec: atomic,
or a sequence whose elements are all atomic (one level of nesting). -/
def OneLevel : Tok → Bool
  | .s _ => true
  | .seq ts => ts.all Tok.isAtom

/-- The strings contributed by a one-level entry. -/
def atomTokens : Tok → List Token
  | .s t => [t]
  | .seq ts => ts.filterMap tokString

/-- `str.join`'s traversal of the flattened token list: every element
must be a string; `none` models the `TypeError` on the first
non-string. -/
def mapTokStrings : List Tok → Option (List Token)
  | [] => some []
  | t :: rest =>
    match tokString t with
    | none => none
    | some s =>
      match mapTokStrings rest with
      | none => none
      | some ss => some (s :: ss)

/-- `DelimitedWriter._merge` (single-character delimiter): run the
flattening loop from position 0, then `self._delim.join(tokens)`. -/
def delimitedMerge (d : Char) (tokens : List Tok) : Option Line :=
  (mapTokStrings (mergeLoop tokens 0)).map (joinWith d)

/-- `FixedWidthWriter._merge`: run the flattening loop from position 0,
then concatenate (`"".join(tokens)`). -/
def fixedWidthMerge (tokens : List Tok) : Option Line :=
  (mapTokStrings (mergeLoop tokens 0)).map List.flatten

theorem mergeGo_nil_eq_flatten (l : List Tok) :
    mergeGo [] l = (l.map flatOne).flatten := by
  induction l with
  | nil => rfl
  | cons x rest ih =>
    cases x with
    | s t =>
      simp only [mergeGo, List.nil_append]
      rw [mergeGo_acc rest [Tok.s t], ih]
      simp [flatOne]
    | seq ts =>
      simp only [mergeGo, List.nil_append]
      rw [mergeGo_acc rest ts, ih]
      simp [flatOne]

theorem mergeLoop_zero (tokens : List Tok) :
    mergeLoop tokens 0 = (tokens.map flatOne).flatten := by
  rw [mergeLoop_eq_go]
  simp [mergeGo_nil_eq_flatten]

theorem mapTokStrings_append (a b : List Tok) :
    mapTokStrings (a ++ b) =
      (mapTokStrings a).bind
        (fun xs => (mapTokStrings b).map (fun ys => xs ++ ys)) := by
  induction a with
  | nil =>
    simp only [List.nil_append, mapTokStrings, Option.bind]
    cases mapTokStrings b <;> rfl
  | cons x a' ih =>
    simp only [List.cons_append, mapTokStrings, List.append_eq]
    rw [ih]
    cases htok : tokString x with
    | none => rfl
    | some s =>
      cases ha : mapTokStrings a' with
      | none => rfl
      | some xs =>
        cases hb : mapTokStrings b <;> rfl

theorem mapTokStrings_atoms (ts : List Tok) (h : ts.all Tok.isAtom = true) :
    mapTokStrings ts = some (ts.filterMap tokString) := by
  induction ts with
  | nil => rfl
  | cons x r ih =>
    simp only [List.all_cons, Bool.and_eq_true] at h
    cases x with
    | s t =>
      simp only [mapTokStrings, tokString, List.filterMap_cons]
      rw [ih h.2]
    | seq us => simp [Tok.isAtom] at h

theorem oneLevel_strings (tokens : List Tok)
    (h : ∀ t ∈ tokens, OneLevel t = true) :
    mapTokStrings ((tokens.map flatOne).flatten) =
      some ((tokens.map atomTokens).flatten) := by
  induction tokens with
  | nil => rfl
  | cons x rest ih =>
    have hx := h x (by simp)
    have hrest := ih (fun t ht => h t (by simp [ht]))
    simp only [List.map_cons, List.flatten_cons]
    rw [mapTokStrings_append, hrest]
    cases x with
    | s t => simp [flatOne, mapTokStrings, tokString, atomTokens]
    | seq ts =>
      simp only [OneLevel] at hx
      rw [show flatOne (Tok.seq ts) = ts from rfl,
        mapTokStrings_atoms ts hx]
      simp [atomTokens]

/-- C2 counterexample: a token nested two levels deep
(`[["a", ["b"]]]`, as an array codec of arrays could produce) is
spliced once and then skipped, so the pass terminates with the inner
sequence still unflattened, and both writers' joins fail on the
non-string element (a Python `TypeError`) instead of producing the
fully flattened line the claim asserts. -/
theorem merge_depth_two_unflattened :
    mergeLoop [Tok.seq [Tok.s ['a'], Tok.seq [Tok.s ['b']]]] 0 =
      [Tok.s ['a'], Tok.seq [Tok.s ['b']]] ∧
    delimitedMerge ',' [Tok.seq [Tok.s ['a'], Tok.seq [Tok.s ['b']]]] =
      none ∧
    fixedWidthMerge [Tok.seq [Tok.s ['a'], Tok.seq [Tok.s ['b']]]] =
      none := by
  have h := mergeLoop_zero [Tok.seq [Tok.s ['a'], Tok.seq [Tok.s ['b']]]]
  refine ⟨?_, ?_, ?_⟩
  · rw [h]; rfl
  · unfold delimitedMerge; rw [h]; rfl
  · unfold fixedWidthMerge; rw [h]; rfl

/-- C2 amended: the merge pass walks the token list left to right,
advancing one position past an atomic token and splicing a sequence's
elements in place, but then advances past the spliced elements
(`pos += len(token)`), so exactly one level of nesting is flattened
and spliced elements are never re-examined.  On one-level token lists —
the shape scalar and array codecs produce — the loop yields the full
left-to-right flattening, which `DelimitedWriter._merge` joins with the
delimiter and `FixedWidthWriter._merge` concatenates. -/
theorem merge_flattens_one_level (d : Char) (tokens : List Tok)
    (h : ∀ t ∈ tokens, OneLevel t = true) :
    mergeLoop tokens 0 = (tokens.map flatOne).flatten ∧
    delimitedMerge d tokens =
      some (joinWith d ((tokens.map atomTokens).flatten)) ∧
    fixedWidthMerge tokens =
      some ((tokens.map atomTokens).flatten.flatten) := by
  refine ⟨mergeLoop_zero tokens, ?_, ?_⟩
  · unfold delimitedMerge
    rw [mergeLoop_zero, oneLevel_strings tokens h]
    rfl
  · unfold fixedWidthMerge
    rw [mergeLoop_zero, oneLevel_strings tokens h]
    rfl

/-- Witness for C2 (amended): the one-level token list an array field
plus a scalar field produce (`[["1", "2"], "3"]`) flattens and joins to
`1,2,3` for the delimited writer and `123` for the fixed-width writer. -/
theorem merge_flattens_one_level_witness :
    delimitedMerge ',' [Tok.seq [Tok.s ['1'], Tok.s ['2']], Tok.s ['3']] =
      some ['1', ',', '2', ',', '3'] ∧
    fixedWidthMerge [Tok.seq [Tok.s ['1'], Tok.s ['2']], Tok.s ['3']] =
      some ['1', '2', '3'] := by
  have h := merge_flattens_one_level ','
    [Tok.seq [Tok.s ['1'], Tok.s ['2']], Tok.s ['3']] (by decide)
  exact ⟨h.2.1, h.2.2⟩

end Serial

namespace Serial

/-- Modelled from the spec: `serial.core._util.Field` is imported by
reader.py and writer.py but its module is not under src/.  Per the
spec's data model a Field is a name, a position specifier, and a codec
providing `decode(token_or_tokens) -> value` and
`encode(value) -> token_or_tokens`; `_put` passes `record.get(name)`
(possibly `None`, here `none`) to `encode`. -/
structure Field (V : Type u) where
  name : String
  pos : Pos
  decode : TokArg → V
  encode : Option V → Tok

def isOkE : Except Unit β → Bool
  | .ok _ => true
  | .error _ => false

/-- Token selection `tokens[field.pos]` in `DelimitedReader._split`: an
integer position indexes one token (an uncaught `IndexError`, modelled
as `Except.error`, when out of range); a range position is a Python
slice, which clamps to the available tokens. -/
def delimitedSelect (tokens : List Token) : Pos → Except Unit TokArg
  | .idx i =>
    if h : i < tokens.length then .ok (.inl (tokens.get ⟨i, h⟩))
    else .error ()
  | .rng b e => .ok (.inr ((tokens.drop b).take (e - b)))

/-- Character selection `line[field.pos]` in `FixedWidthReader._split`:
a range position is a Python slice of the line, which clamps (a too
short line yields a truncated or empty token, never an error); an
integer position indexes a single character. -/
def fixedSelect (line : Line) : Pos → Except Unit Token
  | .idx i =>
    if h : i < line.length then .ok [line.get ⟨i, h⟩]
    else .error ()
  | .rng b e => .ok ((line.drop b).take (e - b))

/-- Evaluate `g` over a list left to right, propagating the first
error — the evaluation order of the `tuple(... for field in
self._fields)` generators in `_split`. -/
def exceptMapList (g : β → Except Unit γ) : List β → Except Unit (List γ)
  | [] => .ok []
  | x :: xs =>
    match g x with
    | .error e => .error e
    | .ok y =>
      match exceptMapList g xs with
      | .error e => .error e
      | .ok ys => .ok (y :: ys)

/-- `DelimitedReader._split` (single-character delimiter): split the
line at the delimiter, then select each field's token(s) by position. -/
def delimitedSplit (fields : List (Field V)) (delim : Char) (line : Line) :
    Except Unit (List TokArg) :=
  exceptMapList (fun f => delimitedSelect (splitOnChar delim line) f.pos)
    fields

/-- `FixedWidthReader._split`: slice the line by each field's character
position. -/
def fixedWidthSplit (fields : List (Field V)) (line : Line) :
    Except Unit (List TokArg) :=
  exceptMapList (fun f => (fixedSelect line f.pos).map Sum.inl) fields

/-- `_TabularReader._get`: strip the terminator, `_split` the line, and
build the record `dict` of decoded values keyed by field name, in
FieldSet order; split errors propagate uncaught. -/
def tabularGet (split : Line → Except Unit (List TokArg))
    (fields : List (Field V)) (endl : Char) (raw : Line) :
    Except Unit (List (String × V)) :=
  match split (rstripChar endl raw) with
  | .error e => .error e
  | .ok toks =>
    .ok (List.zipWith (fun f a => (f.name, f.decode a)) fields toks)

/-- `record.get(name)` on the insertion-ordered pair list: the last
binding of the key wins (Python dict semantics), `none` if absent. -/
def recordGet (record : List (String × V)) (k : String) : Option V :=
  (record.reverse.find? (fun p => p.1 == k)).map (fun p => p.2)

/-- `_TabularWriter._put`: encode `record.get(field.name)` for each
field in FieldSet order, `_merge` the tokens and append the terminator
(`none` models a `TypeError` escaping from the merge's join). -/
def tabularPut (merge : List Tok → Option Line) (fields : List (Field V))
    (endl : Char) (record : List (String × V)) : Option Line :=
  (merge (fields.map (fun f => f.encode (recordGet record f.name)))).map
    (fun l => l ++ [endl])

/-- `DelimitedReader` reading one raw line into a record. -/
def delimitedGet (fields : List (Field V)) (delim endl : Char)
    (raw : Line) : Except Unit (List (String × V)) :=
  tabularGet (delimitedSplit fields delim) fields endl raw

/-- `FixedWidthReader` reading one raw line into a record. -/
def fixedWidthGet (fields : List (Field V)) (endl : Char) (raw : Line) :
    Except Unit (List (String × V)) :=
  tabularGet (fixedWidthSplit fields) fields endl raw

/-- `DelimitedWriter` writing one record to a line. -/
def delimitedPut (fields : List (Field V)) (delim endl : Char)
    (record : List (String × V)) : Option Line :=
  tabularPut (delimitedMerge delim) fields endl record

/-- `_TabularWriter.fields()`:
`tuple((field.name for field in self._fields))`, the names in
declaration order (`make_fields`, modelled from the spec, preserves the
construction order of the field specifications). -/
def writerFieldNames (fields : List (Field V)) : List String :=
  fields.map (fun f => f.name)

/-- The tokens a delimited field's position selects, as a plain list
(one token for an in-range index, the clamped slice for a range). -/
def selToks (tokens : List Token) : Pos → List Token
  | .idx i => (tokens.drop i).take 1
  | .rng b e => (tokens.drop b).take (e - b)

/-- The token argument as `encode` must reproduce it for a round trip:
a scalar token maps to an atomic token, a token-range to a one-level
sequence. -/
def embedTok : TokArg → Tok
  | .inl t => .s t
  | .inr ts => .seq (ts.map Tok.s)

/-- The plain token strings of a selection. -/
def tokArgToks : TokArg → List Token
  | .inl t => [t]
  | .inr ts => ts

/-- An identity codec field over `V = TokArg`: decode is the identity,
encode reproduces the selection (and encodes an absent value as an
empty token). -/
def idField (n : String) (p : Pos) : Field TokArg :=
  ⟨n, p, id, fun v => match v with
    | some a => embedTok a
    | none => Tok.s []⟩

/-- The methods the reader classes define (`_Reader`: `__init__`,
`filter`, `next`, `__iter__`, `_get`; `_TabularReader` adds `open` and
`_split` and overrides `__init__` and `_get`; `DelimitedReader` and
`FixedWidthReader` override `__init__` and `_split` only). -/
def tabularReaderMethods : List String :=
  ["__init__", "filter", "next", "__iter__", "_get", "open", "_split"]

/-- The methods the writer classes define (`_Writer`: `__init__`,
`filter`, `write`, `dump`, `_put`; `_TabularWriter` adds `fields` and
`_merge` and overrides `__init__` and `_put`). -/
def tabularWriterMethods : List String :=
  ["__init__", "filter", "write", "dump", "_put", "fields", "_merge"]

end Serial

namespace Serial

/-- C5: `_TabularWriter` defines `fields()` and it returns the field
names in declaration order, but no reader class defines a `fields`
method at all (the repository's own test suite calls
`reader.fields()` in `TabularReaderTest.test_fields`, which can only
fail with `AttributeError`). -/
theorem reader_has_no_fields_query :
    ("fields" ∈ tabularWriterMethods ∧ "fields" ∉ tabularReaderMethods) ∧
    writerFieldNames [idField "A" (Pos.rng 0 2), idField "B" (Pos.idx 2)] =
      ["A", "B"] := by
  exact ⟨⟨by decide, by decide⟩, rfl⟩

theorem delimitedSelect_error_iff (tokens : List Token) (p : Pos) :
    isOkE (delimitedSelect tokens p) = false ↔
      ∃ i, p = Pos.idx i ∧ tokens.length ≤ i := by
  cases p with
  | idx i =>
    simp only [delimitedSelect]
    by_cases h : i < tokens.length
    · rw [dif_pos h]
      simp [isOkE]
      omega
    · rw [dif_neg h]
      simp [isOkE]
      omega
  | rng b e => simp [delimitedSelect, isOkE]

theorem exceptMapList_isOk (g : β → Except Unit γ) (l : List β) :
    isOkE (exceptMapList g l) = l.all (fun x => isOkE (g x)) := by
  induction l with
  | nil => rfl
  | cons x xs ih =>
    simp only [exceptMapList, List.all_cons]
    cases hg : g x with
    | error e => simp [isOkE]
    | ok y =>
      cases hrec : exceptMapList g xs with
      | error e =>
        rw [hrec] at ih
        rw [← ih]
        simp [hg, hrec, isOkE]
      | ok ys =>
        rw [hrec] at ih
        rw [← ih]
        simp [hg, hrec, isOkE]

/-- C7 counterexample: a fixed-width schema of two 2-character fields
(`A` at [0,2), `B` at [2,4)) reading the too-short line `abc`: Python
slicing clamps, so the read path returns a record whose `B` token is
the truncated `"c"` — no structural decode error is raised. -/
theorem fixed_width_short_line_no_error :
    fixedWidthGet [idField "A" (Pos.rng 0 2), idField "B" (Pos.rng 2 4)]
      '\n' ['a', 'b', 'c', '\n'] =
      Except.ok [("A", Sum.inl ['a', 'b']), ("B", Sum.inl ['c'])] := by
  rfl

/-- C7 amended: only delimited scalar fields produce a structural error
on malformed lines — `DelimitedReader._split` fails exactly when some
integer-positioned field's index is beyond the token count (an
`IndexError`, which `_get` propagates uncaught, so the record is never
built); delimited range selections always succeed (Python slices
clamp), and `FixedWidthReader._split` of a schema of range-positioned
fields succeeds on every line, silently producing truncated or empty
tokens for a too-short line. -/
theorem split_structural_errors (fields : List (Field V)) (delim : Char)
    (line : Line) :
    (isOkE (delimitedSplit fields delim line) = false ↔
      ∃ f ∈ fields, ∃ i, f.pos = Pos.idx i ∧
        (splitOnChar delim line).length ≤ i) ∧
    (∀ b e, isOkE (delimitedSelect (splitOnChar delim line)
      (Pos.rng b e)) = true) ∧
    ((∀ f ∈ fields, ∃ b e, f.pos = Pos.rng b e) →
      isOkE (fixedWidthSplit fields line) = true) ∧
    (∀ (endl : Char) (raw : Line),
      isOkE (tabularGet (delimitedSplit fields delim) fields endl raw) =
        isOkE (delimitedSplit fields delim (rstripChar endl raw))) := by
  refine ⟨?_, ?_, ?_, ?_⟩
  · constructor
    · intro h
      rw [delimitedSplit, exceptMapList_isOk, List.all_eq_false] at h
      obtain ⟨f, hf, hfe⟩ := h
      rw [Bool.not_eq_true] at hfe
      obtain ⟨i, hpi, hlen⟩ := (delimitedSelect_error_iff _ _).mp hfe
      exact ⟨f, hf, i, hpi, hlen⟩
    · rintro ⟨f, hf, i, hpi, hlen⟩
      rw [delimitedSplit, exceptMapList_isOk, List.all_eq_false]
      refine ⟨f, hf, ?_⟩
      rw [Bool.not_eq_true]
      exact (delimitedSelect_error_iff _ _).mpr ⟨i, hpi, hlen⟩
  · intro b e
    simp [delimitedSelect, isOkE]
  · intro h
    rw [fixedWidthSplit, exceptMapList_isOk, List.all_eq_true]
    intro f hf
    obtain ⟨b, e, hp⟩ := h f hf
    rw [hp]
    simp [fixedSelect, isOkE, Except.map]
  · intro endl raw
    rw [tabularGet]
    cases hs : delimitedSplit fields delim (rstripChar endl raw) <;>
      simp [isOkE, hs]

/-- Witness for C7 (amended): the delimited schema `A` at token 0, `B`
at token 2 fails (index error) on the one-token line `1`, while the
fixed-width range schema of the counterexample accepts every line. -/
theorem split_structural_errors_witness :
    isOkE (delimitedSplit [idField "A" (Pos.idx 0), idField "B" (Pos.idx 2)]
      ',' ['1']) = false ∧
    isOkE (fixedWidthSplit
      [idField "A" (Pos.rng 0 2), idField "B" (Pos.rng 2 4)]
      ['a', 'b', 'c']) = true := by
  constructor
  · exact (split_structural_errors
      [idField "A" (Pos.idx 0), idField "B" (Pos.idx 2)] ',' ['1']).1.mpr
      ⟨idField "B" (Pos.idx 2),
        List.mem_cons_of_mem _ (List.mem_cons_self _ _), 2, rfl, by decide⟩
  · exact (split_structural_errors
      [idField "A" (Pos.rng 0 2), idField "B" (Pos.rng 2 4)] ','
      ['a', 'b', 'c']).2.2.1
      (by
        intro f hf
        rcases List.mem_cons.mp hf with h1 | h1
        · exact ⟨0, 2, by rw [h1]; rfl⟩
        · rcases List.mem_cons.mp h1 with h2 | h2
          · exact ⟨2, 4, by rw [h2]; rfl⟩
          · exact absurd h2 (List.not_mem_nil f))

end Serial

namespace Serial

/-- The value inside a successful selection (an arbitrary default for
the error case, which the round-trip hypotheses exclude). -/
def exceptValD : Except Unit TokArg → TokArg
  | .ok a => a
  | .error _ => .inl []

/-- The selection a field's position makes on the token list, as a
total function. -/
def selValD (tokens : List Token) (p : Pos) : TokArg :=
  exceptValD (delimitedSelect tokens p)

theorem isOkE_eq_ok (e : Except Unit TokArg) (h : isOkE e = true) :
    e = .ok (exceptValD e) := by
  cases e with
  | ok a => rfl
  | error err => simp [isOkE] at h

theorem exceptMapList_ok (g : β → Except Unit γ) (gv : β → γ)
    (l : List β) (h : ∀ x ∈ l, g x = .ok (gv x)) :
    exceptMapList g l = .ok (l.map gv) := by
  induction l with
  | nil => rfl
  | cons x xs ih =>
    simp only [exceptMapList, List.map_cons]
    rw [h x (by simp), ih (fun y hy => h y (by simp [hy]))]

theorem zipWith_pair_map (k : β → γ → δ) (g : β → γ) (l : List β) :
    List.zipWith k l (l.map g) = l.map (fun x => k x (g x)) := by
  induction l with
  | nil => rfl
  | cons x xs ih => simp [ih]

theorem recordGet_map (fields : List (Field V)) (v : Field V → V)
    (hnodup : (fields.map (fun f => f.name)).Nodup) :
    ∀ f ∈ fields,
      recordGet (fields.map (fun g => (g.name, v g))) f.name =
        some (v f) := by
  induction fields with
  | nil => intro f hf; simp at hf
  | cons g rest ih =>
    intro f hf
    simp only [List.map_cons, List.nodup_cons] at hnodup
    unfold recordGet
    simp only [List.map_cons, List.reverse_cons, List.find?_append]
    rcases List.mem_cons.mp hf with hfg | hfr
    · subst hfg
      have hnone : ((rest.map (fun g' => (g'.name, v g'))).reverse.find?
          (fun p => p.1 == f.name)) = none := by
        rw [List.find?_eq_none]
        intro p hp
        rw [List.mem_reverse] at hp
        obtain ⟨g', hg', hpe⟩ := List.mem_map.mp hp
        rw [← hpe]
        intro hname
        simp only [beq_iff_eq] at hname
        exact hnodup.1 (List.mem_map.mpr ⟨g', hg', hname⟩)
      rw [hnone]
      simp [List.find?]
    · have hih := ih hnodup.2 f hfr
      unfold recordGet at hih
      cases hfind : ((rest.map (fun g' => (g'.name, v g'))).reverse.find?
          (fun p => p.1 == f.name)) with
      | none => rw [hfind] at hih; simp at hih
      | some p =>
        rw [hfind] at hih
        simp at hih
        simp [Option.or, hih]

theorem oneLevel_embedTok (a : TokArg) : OneLevel (embedTok a) = true := by
  cases a with
  | inl t => rfl
  | inr ts =>
    simp only [embedTok, OneLevel, List.all_map]
    simp [Tok.isAtom, Function.comp]

theorem atomTokens_embedTok (a : TokArg) :
    atomTokens (embedTok a) = tokArgToks a := by
  cases a with
  | inl t => rfl
  | inr ts =>
    simp only [embedTok, atomTokens, tokArgToks, List.filterMap_map]
    have : (tokString ∘ Tok.s) = some := by
      funext t
      rfl
    rw [this, List.filterMap_some]

theorem tokArgToks_select (tokens : List Token) (p : Pos) (a : TokArg)
    (h : delimitedSelect tokens p = .ok a) :
    tokArgToks a = selToks tokens p := by
  cases p with
  | idx i =>
    simp only [delimitedSelect] at h
    by_cases hi : i < tokens.length
    · rw [dif_pos hi] at h
      cases h
      simp only [tokArgToks, selToks]
      rw [List.drop_eq_getElem_cons hi, List.take_succ_cons, List.take_zero]
      rfl
    · rw [dif_neg hi] at h
      exact absurd h (by simp)
  | rng b e =>
    simp only [delimitedSelect] at h
    cases h
    rfl

end Serial

namespace Serial

/-- C3: for the delimited tabular format (the instantiation of
`_TabularReader._get`/`_TabularWriter._put` with
`DelimitedReader._split` and `DelimitedWriter._merge`), with a FieldSet
whose codecs satisfy `encode(decode(t)) = t` on the tokens the line
provides, reading a correctly formatted line (terminator included) and
writing the resulting record back reproduces the line exactly.
Correctly formatted means: the payload does not itself end in the
terminator, field names are distinct, every field position selects
successfully from the split tokens, and the selections tile the token
list in FieldSet order. -/
theorem delimited_round_trip (fields : List (Field V)) (delim endl : Char)
    (L : Line)
    (hend : L.getLast? ≠ some endl)
    (hnodup : (fields.map (fun f => f.name)).Nodup)
    (hsel : ∀ f ∈ fields,
      isOkE (delimitedSelect (splitOnChar delim L) f.pos) = true)
    (hcover :
      (fields.map (fun f => selToks (splitOnChar delim L) f.pos)).flatten =
        splitOnChar delim L)
    (hcodec : ∀ f ∈ fields, ∀ a,
      delimitedSelect (splitOnChar delim L) f.pos = Except.ok a →
      f.encode (some (f.decode a)) = embedTok a) :
    ∃ record,
      delimitedGet fields delim endl (L ++ [endl]) = Except.ok record ∧
      delimitedPut fields delim endl record = some (L ++ [endl]) := by
  have hline : rstripChar endl (L ++ [endl]) = L :=
    rstripChar_append endl L hend
  have hselv : ∀ f ∈ fields,
      delimitedSelect (splitOnChar delim L) f.pos =
        Except.ok (selValD (splitOnChar delim L) f.pos) :=
    fun f hf => isOkE_eq_ok _ (hsel f hf)
  have hsplit : delimitedSplit fields delim L =
      Except.ok (fields.map (fun f => selValD (splitOnChar delim L) f.pos)) :=
    exceptMapList_ok _ _ fields hselv
  refine ⟨fields.map (fun f =>
    (f.name, f.decode (selValD (splitOnChar delim L) f.pos))), ?_, ?_⟩
  · unfold delimitedGet tabularGet
    rw [hline]
    simp only [hsplit]
    rw [zipWith_pair_map]
  · unfold delimitedPut tabularPut
    have henc : fields.map (fun f => f.encode (recordGet
        (fields.map (fun g =>
          (g.name, g.decode (selValD (splitOnChar delim L) g.pos))))
        f.name)) =
        fields.map (fun f => embedTok (selValD (splitOnChar delim L) f.pos)) := by
      apply List.map_congr_left
      intro f hf
      rw [recordGet_map fields
        (fun g => g.decode (selValD (splitOnChar delim L) g.pos)) hnodup f hf]
      exact hcodec f hf _ (hselv f hf)
    rw [henc]
    unfold delimitedMerge
    rw [mergeLoop_zero]
    have honel : ∀ t ∈ fields.map (fun f =>
        embedTok (selValD (splitOnChar delim L) f.pos)), OneLevel t = true := by
      intro t ht
      obtain ⟨f, hf, hte⟩ := List.mem_map.mp ht
      rw [← hte]
      exact oneLevel_embedTok _
    rw [oneLevel_strings _ honel]
    have hpt : ∀ f ∈ fields,
        (atomTokens ∘ fun f => embedTok (selValD (splitOnChar delim L) f.pos)) f =
          selToks (splitOnChar delim L) f.pos := by
      intro f hf
      show atomTokens (embedTok (selValD (splitOnChar delim L) f.pos)) = _
      rw [atomTokens_embedTok]
      exact tokArgToks_select _ _ _ (hselv f hf)
    rw [List.map_map, List.map_congr_left hpt, hcover]
    show some (joinWith delim (splitOnChar delim L) ++ [endl]) =
      some (L ++ [endl])
    rw [joinWith_splitOnChar]

/-- Witness for C3: the test suite's delimited schema (`A` spanning
tokens [0,2), `B` at token 2, comma delimiter) over the line `1,2,3`
with identity codecs: reading then writing reproduces the raw line. -/
theorem delimited_round_trip_witness :
    ∃ record,
      delimitedGet [idField "A" (Pos.rng 0 2), idField "B" (Pos.idx 2)]
        ',' '\n' (['1', ',', '2', ',', '3'] ++ ['\n']) =
        Except.ok record ∧
      delimitedPut [idField "A" (Pos.rng 0 2), idField "B" (Pos.idx 2)]
        ',' '\n' record = some (['1', ',', '2', ',', '3'] ++ ['\n']) := by
  apply delimited_round_trip
  · decide
  · decide
  · decide
  · decide
  · intro f hf a ha
    rcases List.mem_cons.mp hf with h1 | h1
    · subst h1
      rw [show delimitedSelect (splitOnChar ',' ['1', ',', '2', ',', '3'])
          (idField "A" (Pos.rng 0 2)).pos =
          Except.ok (Sum.inr [['1'], ['2']]) from rfl] at ha
      cases ha
      rfl
    · rcases List.mem_cons.mp h1 with h2 | h2
      · subst h2
        rw [show delimitedSelect (splitOnChar ',' ['1', ',', '2', ',', '3'])
            (idField "B" (Pos.idx 2)).pos =
            Except.ok (Sum.inl ['3']) from rfl] at ha
        cases ha
        rfl
      · exact absurd h2 (List.not_mem_nil f)

end Serial
